import Mathlib

/-!
Verification of the multimodal transit graph builder and shortest-path
query engine, together with the `StatsPatch` instrumentation context
manager from `shortest_paths.py`.

The graph builder (`build_graph`) and the path query engine (`find_path`)
are modelled from the specification (the repository delegates the search
to a third-party library and contains no in-repo implementation); the
`StatsPatch` monkey-patching context manager is embedded directly from
the Python source.
-/

namespace Transit

/-! ## Data model -/

abbrev StationId := Nat

inductive EdgeType
  | RIDE
  | TRANSFER
deriving DecidableEq

/-- A directed edge of the transit graph, tagged RIDE or TRANSFER,
carrying a non-negative cost. -/
structure Edge where
  src : StationId
  dst : StationId
  etype : EdgeType
  cost : Nat
deriving DecidableEq

/-- A station: identifier, display name, line identifier, projected
coordinates. -/
structure Station where
  id : StationId
  name : String
  line : String
  x : Int
  y : Int
deriving DecidableEq

/-- A graph: set of stations plus the union of ride and transfer edges. -/
structure Graph where
  stations : List Station
  edges : List Edge
deriving DecidableEq

/-- Result of a path query: ordered station sequence, traversed edges
with their type tags, and the total cost. -/
structure PathResult where
  path : List StationId
  edges : List Edge
  total : Nat
deriving DecidableEq

inductive QueryError
  | UnknownStationError
  | NotFoundError
deriving DecidableEq

/-! ## Path query engine

Modelled from the spec: informed best-first search (A*-style) over the
graph, with a priority queue ordered by `cost_so_far + heuristic`, a
visited-cost table of settled stations, success when the destination is
popped, `NotFoundError` when the frontier empties.  The heuristic is a
parameter (the spec allows the implementer to relax it); ties in total
estimated cost are broken by preferring the node discovered earlier
(stable insertion order). -/

/-- A frontier entry: the node, its cost so far, the estimated total
(`gScore + h node`), the discovery (insertion) order, and the traversed
edges in reverse. -/
structure Entry where
  node : StationId
  gScore : Nat
  est : Nat
  order : Nat
  revEdges : List Edge
deriving DecidableEq

/-- Priority comparison: lower estimated total first; among equal
estimates, the node discovered earlier (smaller insertion order). -/
def isBetter (a b : Entry) : Bool :=
  a.est < b.est || (a.est == b.est && a.order < b.order)

/-- Pop the best entry (minimum estimate, earliest insertion on ties)
from the frontier list. -/
def popMin : List Entry → Option (Entry × List Entry)
  | [] => none
  | e :: rest =>
    match popMin rest with
    | none => some (e, [])
    | some (e', rest') => if isBetter e' e then some (e', e :: rest') else some (e, rest)

/-- Adjacency: out-edges of a node in an edge list. -/
def adjE (E : List Edge) (n : StationId) : List Edge :=
  E.filter (fun ed => ed.src == n)

/-- Membership test in the visited-cost table. -/
def settledHas (s : List (StationId × Nat)) (n : StationId) : Bool :=
  s.any (fun p => p.1 == n)

/-- Successor entries created when a node is expanded: one per out-edge,
with consecutive insertion orders starting at `base`. -/
def mkEntries (h : StationId → Nat) (base gS : Nat) (rev : List Edge) :
    List Edge → List Entry
  | [] => []
  | ed :: rest =>
    ⟨ed.dst, gS + ed.cost, gS + ed.cost + h ed.dst, base, ed :: rev⟩ ::
      mkEntries h (base + 1) gS rev rest

/-- Nodes not yet settled, used as the primary termination measure. -/
def unsettledCount (allNodes : List StationId) (s : List (StationId × Nat)) : Nat :=
  (allNodes.filter (fun n => !settledHas s n)).length

theorem length_filter_le_of_imp (l : List StationId) (p q : StationId → Bool)
    (hpq : ∀ n, q n = true → p n = true) :
    (l.filter q).length ≤ (l.filter p).length := by
  induction l with
  | nil => simp
  | cons a l ih =>
    by_cases hq : q a = true
    · simp [List.filter, hq, hpq a hq]
      omega
    · simp only [Bool.not_eq_true] at hq
      by_cases hp : p a = true
      · simp [List.filter, hq, hp]
        omega
      · simp only [Bool.not_eq_true] at hp
        simp [List.filter, hq, hp, ih]

theorem length_filter_lt_of_witness (l : List StationId) (p q : StationId → Bool)
    (hpq : ∀ n, q n = true → p n = true)
    (w : StationId) (hwl : w ∈ l) (hwp : p w = true) (hwq : q w = false) :
    (l.filter q).length < (l.filter p).length := by
  induction l with
  | nil => cases hwl
  | cons a l ih =>
    rcases List.mem_cons.mp hwl with rfl | hwl'
    · have h1 : (l.filter q).length ≤ (l.filter p).length :=
        length_filter_le_of_imp l p q hpq
      simp [List.filter, hwp, hwq]
      omega
    · by_cases hq : q a = true
      · simp [List.filter, hq, hpq a hq]
        exact ih hwl'
      · simp only [Bool.not_eq_true] at hq
        have h1 : (l.filter q).length < (l.filter p).length := ih hwl'
        by_cases hp : p a = true
        · simp [List.filter, hq, hp]
          omega
        · simp only [Bool.not_eq_true] at hp
          simp [List.filter, hq, hp]
          exact h1

theorem settledHas_cons (u : StationId) (d : Nat) (s : List (StationId × Nat))
    (n : StationId) :
    settledHas ((u, d) :: s) n = ((u == n) || settledHas s n) := by
  simp [settledHas, List.any_cons]

theorem unsettledCount_lt (allNodes : List StationId) (s : List (StationId × Nat))
    (u : StationId) (d : Nat) (hu : u ∈ allNodes) (hs : settledHas s u = false) :
    unsettledCount allNodes ((u, d) :: s) < unsettledCount allNodes s := by
  apply length_filter_lt_of_witness
  · intro n hn
    simp only [settledHas_cons, Bool.not_eq_true', Bool.or_eq_false_iff] at hn
    simp [hn.2]
  · exact hu
  · simp [hs]
  · simp [settledHas_cons]

theorem popMin_cons_isSome (a : Entry) (l : List Entry) :
    (popMin (a :: l)).isSome = true := by
  simp only [popMin]
  cases popMin l with
  | none => rfl
  | some p =>
    obtain ⟨e', r'⟩ := p
    by_cases hb : isBetter e' a = true <;> simp [hb]

theorem popMin_none {l : List Entry} (h : popMin l = none) : l = [] := by
  cases l with
  | nil => rfl
  | cons a l =>
    have := popMin_cons_isSome a l
    rw [h] at this
    simp at this

theorem popMin_perm {l : List Entry} {e : Entry} {rest : List Entry}
    (h : popMin l = some (e, rest)) : l.Perm (e :: rest) := by
  induction l generalizing e rest with
  | nil => simp [popMin] at h
  | cons a l ih =>
    simp only [popMin] at h
    cases hp : popMin l with
    | none =>
      rw [hp] at h
      obtain rfl := popMin_none hp
      simp only [Option.some.injEq, Prod.mk.injEq] at h
      obtain ⟨rfl, rfl⟩ := h
      exact List.Perm.refl _
    | some p =>
      obtain ⟨b, rest'⟩ := p
      rw [hp] at h
      by_cases hb : isBetter b a = true
      · simp only [hb, if_true] at h
        obtain ⟨rfl, rfl⟩ := h
        exact ((ih hp).cons a).trans (List.Perm.swap _ a rest')
      · simp only [hb, if_false, reduceIte] at h
        obtain ⟨rfl, rfl⟩ := h
        exact List.Perm.refl _

theorem popMin_length {l : List Entry} {e : Entry} {rest : List Entry}
    (h : popMin l = some (e, rest)) : rest.length + 1 = l.length := by
  have := (popMin_perm h).length_eq
  simp at this
  omega

theorem popMin_mem {l : List Entry} {e : Entry} {rest : List Entry}
    (h : popMin l = some (e, rest)) : e ∈ l :=
  (popMin_perm h).mem_iff.mpr (List.mem_cons_self e rest)

/-- Every element of the popped frontier is either the popped entry or
remains in the residue. -/
theorem popMin_cases {l : List Entry} {e : Entry} {rest : List Entry}
    (h : popMin l = some (e, rest)) {x : Entry} (hx : x ∈ l) :
    x = e ∨ x ∈ rest := by
  have := (popMin_perm h).mem_iff.mp hx
  simpa using this

/-- The tie-break property of pop: the selected entry has strictly
smaller estimate than any other entry, or the same estimate and an
insertion order at most as large. -/
theorem popMin_min {l : List Entry} {e : Entry} {rest : List Entry}
    (h : popMin l = some (e, rest)) :
    ∀ e' ∈ l, e.est < e'.est ∨ (e.est = e'.est ∧ e.order ≤ e'.order) := by
  induction l generalizing e rest with
  | nil => simp [popMin] at h
  | cons a l ih =>
    simp only [popMin] at h
    cases hp : popMin l with
    | none =>
      rw [hp] at h
      obtain rfl := popMin_none hp
      simp only [Option.some.injEq, Prod.mk.injEq] at h
      obtain ⟨rfl, rfl⟩ := h
      intro e' he'
      simp only [List.mem_singleton] at he'
      subst he'
      right
      exact ⟨rfl, le_refl _⟩
    | some p =>
      obtain ⟨b, rest'⟩ := p
      rw [hp] at h
      by_cases hb : isBetter b a = true
      · simp only [hb, if_true] at h
        obtain ⟨rfl, rfl⟩ := h
        intro e' he'
        rcases List.mem_cons.mp he' with rfl | hm
        · simp [isBetter] at hb
          omega
        · exact ih hp e' hm
      · simp only [hb, if_false, reduceIte] at h
        obtain ⟨rfl, rfl⟩ := h
        intro e' he'
        rcases List.mem_cons.mp he' with rfl | hm
        · right
          exact ⟨rfl, le_refl _⟩
        · have hmin := ih hp e' hm
          simp [isBetter] at hb
          omega

theorem popMin_min_est {l : List Entry} {e : Entry} {rest : List Entry}
    (h : popMin l = some (e, rest)) :
    ∀ e' ∈ l, e.est ≤ e'.est := by
  intro e' he'
  rcases popMin_min h e' he' with h1 | h1
  · omega
  · omega

/-- The main search loop.  `allNodes` over-approximates the nodes that may
ever enter the frontier (the origin and all edge destinations); the
`allNodes.contains` test in the skip branch is a termination device that
never fires on frontiers produced by `find_path` (every frontier node is
the origin or an edge destination). -/
def aStarLoop (adj : StationId → List Edge) (h : StationId → Nat)
    (dest : StationId) (allNodes : List StationId)
    (settled : List (StationId × Nat)) (frontier : List Entry)
    (nextOrder : Nat) : Option (List Edge × Nat) :=
  match hpop : popMin frontier with
  | none => none
  | some (e, rest) =>
    if e.node = dest then some (e.revEdges, e.gScore)
    else if settledHas settled e.node || !(allNodes.contains e.node) then
      aStarLoop adj h dest allNodes settled rest nextOrder
    else
      aStarLoop adj h dest allNodes ((e.node, e.gScore) :: settled)
        (rest ++ mkEntries h nextOrder e.gScore e.revEdges (adj e.node))
        (nextOrder + (adj e.node).length)
termination_by (unsettledCount allNodes settled, frontier.length)
decreasing_by
  · apply Prod.Lex.right
    have := popMin_length hpop
    omega
  · apply Prod.Lex.left
    rename_i hcond
    simp only [Bool.or_eq_true, Bool.not_eq_true', not_or] at hcond
    apply unsettledCount_lt
    · have h2 := hcond.2
      simp only [Bool.not_eq_false] at h2
      simpa [List.contains_eq_any_beq, List.any_eq_true, beq_iff_eq] using h2
    · have h1 := hcond.1
      simpa using h1

/-- Station-set membership check. -/
def stationMem (g : Graph) (n : StationId) : Bool :=
  g.stations.any (fun s => s.id == n)

/-- Over-approximation of all nodes the frontier can ever hold: the
origin and every edge destination. -/
def allNodesG (g : Graph) (origin : StationId) : List StationId :=
  origin :: g.edges.map (fun ed => ed.dst)

/-- Modelled from the spec: `find_path(graph, origin_id, dest_id,
depart_at) -> PathResult | NotFoundError`.  The repository contains no
in-repo implementation (the search is delegated to a third-party
library); this follows §4.2 of the specification: validate that origin
and destination are in the station set (else `UnknownStationError`), run
the informed best-first search, return the reconstructed `PathResult`
when the destination is popped, `NotFoundError` when the frontier
empties.  The heuristic `h` is a parameter; `depart_at` is accepted and
ignored (the wait-time extension is explicitly optional, not required
for parity). -/
def find_path (g : Graph) (h : StationId → Nat) (origin dest : StationId)
    (depart_at : Option Nat) : Except QueryError PathResult :=
  if !(stationMem g origin) || !(stationMem g dest) then
    .error .UnknownStationError
  else
    match aStarLoop (adjE g.edges) h dest (allNodesG g origin) []
        [⟨origin, 0, h origin, 0, []⟩] 1 with
    | none => .error .NotFoundError
    | some (revEs, c) =>
      .ok ⟨origin :: revEs.reverse.map (fun ed => ed.dst), revEs.reverse, c⟩

/-! ## Paths and costs -/

/-- A path in an adjacency structure: a chain of edges from `s` to `t`. -/
inductive IsPath (adj : StationId → List Edge) : StationId → List Edge → StationId → Prop
  | nil (n : StationId) : IsPath adj n [] n
  | cons {s t : StationId} {ed : Edge} {es : List Edge} :
      ed ∈ adj s → IsPath adj ed.dst es t → IsPath adj s (ed :: es) t

/-- Total cost of a list of edges. -/
def pathCost (es : List Edge) : Nat :=
  (es.map (fun ed => ed.cost)).sum

theorem pathCost_nil : pathCost [] = 0 := rfl

theorem pathCost_cons (ed : Edge) (es : List Edge) :
    pathCost (ed :: es) = ed.cost + pathCost es := rfl

theorem pathCost_append (es fs : List Edge) :
    pathCost (es ++ fs) = pathCost es + pathCost fs := by
  simp [pathCost]

theorem pathCost_reverse (es : List Edge) :
    pathCost es.reverse = pathCost es := by
  simp [pathCost, List.sum_reverse]

theorem IsPath.append {adj : StationId → List Edge} {s m t : StationId}
    {es fs : List Edge} (h1 : IsPath adj s es m) (h2 : IsPath adj m fs t) :
    IsPath adj s (es ++ fs) t := by
  induction h1 with
  | nil => simpa using h2
  | cons hmem _ ih => exact IsPath.cons hmem (ih h2)

theorem IsPath.snoc {adj : StationId → List Edge} {s m : StationId}
    {es : List Edge} {ed : Edge} (h1 : IsPath adj s es m) (h2 : ed ∈ adj m) :
    IsPath adj s (es ++ [ed]) ed.dst :=
  h1.append (IsPath.cons h2 (IsPath.nil ed.dst))

/-! ## Basic membership lemmas -/

theorem mem_adjE {E : List Edge} {n : StationId} {ed : Edge} :
    ed ∈ adjE E n ↔ ed ∈ E ∧ ed.src = n := by
  simp [adjE, List.mem_filter]

theorem settledHas_iff {s : List (StationId × Nat)} {n : StationId} :
    settledHas s n = true ↔ ∃ d, (n, d) ∈ s := by
  simp only [settledHas, List.any_eq_true, beq_iff_eq]
  constructor
  · rintro ⟨⟨a, b⟩, hm, rfl⟩
    exact ⟨b, hm⟩
  · rintro ⟨d, hm⟩
    exact ⟨(n, d), hm, rfl⟩

theorem settledHas_false {s : List (StationId × Nat)} {n : StationId}
    (h : settledHas s n = false) : ∀ d, (n, d) ∉ s := by
  intro d hm
  have : settledHas s n = true := settledHas_iff.mpr ⟨d, hm⟩
  rw [h] at this
  cases this

theorem mem_mkEntries {h : StationId → Nat} {base gS : Nat} {rev : List Edge}
    {L : List Edge} {e : Entry} (hmem : e ∈ mkEntries h base gS rev L) :
    ∃ ed ∈ L, e.node = ed.dst ∧ e.gScore = gS + ed.cost ∧
      e.est = e.gScore + h e.node ∧ e.revEdges = ed :: rev := by
  induction L generalizing base with
  | nil => cases hmem
  | cons ed L ih =>
    rcases List.mem_cons.mp hmem with rfl | hm
    · exact ⟨ed, List.mem_cons_self ed L, rfl, rfl, rfl, rfl⟩
    · obtain ⟨ed', hed', hrest⟩ := ih hm
      exact ⟨ed', List.mem_cons_of_mem ed hed', hrest⟩

theorem mkEntries_cover {h : StationId → Nat} {base gS : Nat} {rev : List Edge}
    {L : List Edge} {ed : Edge} (hmem : ed ∈ L) :
    ∃ e ∈ mkEntries h base gS rev L, e.node = ed.dst ∧ e.gScore = gS + ed.cost := by
  induction L generalizing base with
  | nil => cases hmem
  | cons ed' L ih =>
    rcases List.mem_cons.mp hmem with rfl | hm
    · exact ⟨_, List.mem_cons_self _ _, rfl, rfl⟩
    · obtain ⟨e, he, hrest⟩ := ih hm
      exact ⟨e, List.mem_cons_of_mem _ he, hrest⟩

/-! ## Step lemmas for the search loop -/

theorem aStarLoop_empty (adj : StationId → List Edge) (h : StationId → Nat)
    (dest : StationId) (allNodes : List StationId)
    (settled : List (StationId × Nat)) (no : Nat) {frontier : List Entry}
    (hpop : popMin frontier = none) :
    aStarLoop adj h dest allNodes settled frontier no = none := by
  rw [aStarLoop.eq_def]
  split
  · rfl
  · rename_i e rest heq
    rw [hpop] at heq
    exact Option.noConfusion heq

theorem aStarLoop_found (adj : StationId → List Edge) (h : StationId → Nat)
    (dest : StationId) (allNodes : List StationId)
    (settled : List (StationId × Nat)) (no : Nat) {frontier : List Entry}
    {e : Entry} {rest : List Entry}
    (hpop : popMin frontier = some (e, rest)) (hd : e.node = dest) :
    aStarLoop adj h dest allNodes settled frontier no =
      some (e.revEdges, e.gScore) := by
  rw [aStarLoop.eq_def]
  split
  · rename_i heq
    rw [hpop] at heq
    exact Option.noConfusion heq
  · rename_i e' rest' heq
    rw [hpop] at heq
    cases heq
    rw [if_pos hd]

theorem aStarLoop_skip (adj : StationId → List Edge) (h : StationId → Nat)
    (dest : StationId) (allNodes : List StationId)
    (settled : List (StationId × Nat)) (no : Nat) {frontier : List Entry}
    {e : Entry} {rest : List Entry}
    (hpop : popMin frontier = some (e, rest)) (hd : ¬ e.node = dest)
    (hc : (settledHas settled e.node || !(allNodes.contains e.node)) = true) :
    aStarLoop adj h dest allNodes settled frontier no =
      aStarLoop adj h dest allNodes settled rest no := by
  rw [aStarLoop.eq_def]
  split
  · rename_i heq
    rw [hpop] at heq
    exact Option.noConfusion heq
  · rename_i e' rest' heq
    rw [hpop] at heq
    cases heq
    rw [if_neg hd, if_pos hc]

theorem aStarLoop_settle (adj : StationId → List Edge) (h : StationId → Nat)
    (dest : StationId) (allNodes : List StationId)
    (settled : List (StationId × Nat)) (no : Nat) {frontier : List Entry}
    {e : Entry} {rest : List Entry}
    (hpop : popMin frontier = some (e, rest)) (hd : ¬ e.node = dest)
    (hc : (settledHas settled e.node || !(allNodes.contains e.node)) = false) :
    aStarLoop adj h dest allNodes settled frontier no =
      aStarLoop adj h dest allNodes ((e.node, e.gScore) :: settled)
        (rest ++ mkEntries h no e.gScore e.revEdges (adj e.node))
        (no + (adj e.node).length) := by
  rw [aStarLoop.eq_def]
  split
  · rename_i heq
    rw [hpop] at heq
    exact Option.noConfusion heq
  · rename_i e' rest' heq
    rw [hpop] at heq
    cases heq
    rw [if_neg hd, if_neg (by rw [hc]; decide)]

theorem contains_iff_memId {l : List StationId} {n : StationId} :
    l.contains n = true ↔ n ∈ l := by
  simp

/-! ## Soundness and completeness of the search loop -/

/-- Weak search invariant: every frontier entry records a real path from
the origin with matching cost; out-edges of settled nodes lead to
settled or frontier nodes; the origin is covered; the destination is
never settled; every frontier node is in `allNodes`. -/
structure InvW (adj : StationId → List Edge) (origin dest : StationId)
    (allNodes : List StationId) (settled : List (StationId × Nat))
    (frontier : List Entry) : Prop where
  entryPath : ∀ e ∈ frontier,
    IsPath adj origin e.revEdges.reverse e.node ∧ pathCost e.revEdges = e.gScore
  closure : ∀ p ∈ settled, ∀ ed ∈ adj p.1,
    settledHas settled ed.dst = true ∨ ∃ e ∈ frontier, e.node = ed.dst
  originCov : settledHas settled origin = true ∨ ∃ e ∈ frontier, e.node = origin
  destFree : settledHas settled dest = false
  nodesOk : ∀ e ∈ frontier, e.node ∈ allNodes

theorem skip_cond_settled {allNodes : List StationId}
    {settled : List (StationId × Nat)} {n : StationId}
    (hc : (settledHas settled n || !(allNodes.contains n)) = true)
    (hmem : n ∈ allNodes) : settledHas settled n = true := by
  rcases Bool.or_eq_true_iff.mp hc with h1 | h1
  · exact h1
  · rw [Bool.not_eq_true'] at h1
    rw [contains_iff_memId.mpr hmem] at h1
    cases h1

theorem InvW_skip {adj : StationId → List Edge} {origin dest : StationId}
    {allNodes : List StationId} {settled : List (StationId × Nat)}
    {frontier rest : List Entry} {e : Entry}
    (hinv : InvW adj origin dest allNodes settled frontier)
    (hpop : popMin frontier = some (e, rest))
    (hc : (settledHas settled e.node || !(allNodes.contains e.node)) = true) :
    InvW adj origin dest allNodes settled rest := by
  have hmemrest : ∀ x ∈ rest, x ∈ frontier := by
    intro x hx
    exact (popMin_perm hpop).mem_iff.mpr (List.mem_cons_of_mem e hx)
  have hset : settledHas settled e.node = true :=
    skip_cond_settled hc (hinv.nodesOk e (popMin_mem hpop))
  refine ⟨?_, ?_, ?_, hinv.destFree, ?_⟩
  · intro x hx
    exact hinv.entryPath x (hmemrest x hx)
  · intro p hp ed hed
    rcases hinv.closure p hp ed hed with h1 | ⟨e', he', hn⟩
    · exact Or.inl h1
    · rcases popMin_cases hpop he' with rfl | hm
      · exact Or.inl (by rw [← hn]; exact hset)
      · exact Or.inr ⟨e', hm, hn⟩
  · rcases hinv.originCov with h1 | ⟨e', he', hn⟩
    · exact Or.inl h1
    · rcases popMin_cases hpop he' with rfl | hm
      · exact Or.inl (by rw [← hn]; exact hset)
      · exact Or.inr ⟨e', hm, hn⟩
  · intro x hx
    exact hinv.nodesOk x (hmemrest x hx)

theorem InvW_settle {adj : StationId → List Edge} {h : StationId → Nat}
    {origin dest : StationId} {allNodes : List StationId}
    {settled : List (StationId × Nat)} {frontier rest : List Entry} {e : Entry}
    {no : Nat}
    (hadj : ∀ n, ∀ ed ∈ adj n, ed.dst ∈ allNodes)
    (hinv : InvW adj origin dest allNodes settled frontier)
    (hpop : popMin frontier = some (e, rest))
    (hd : ¬ e.node = dest) :
    InvW adj origin dest allNodes ((e.node, e.gScore) :: settled)
      (rest ++ mkEntries h no e.gScore e.revEdges (adj e.node)) := by
  have hmemrest : ∀ x ∈ rest, x ∈ frontier := by
    intro x hx
    exact (popMin_perm hpop).mem_iff.mpr (List.mem_cons_of_mem e hx)
  have hE := hinv.entryPath e (popMin_mem hpop)
  refine ⟨?_, ?_, ?_, ?_, ?_⟩
  · intro x hx
    rcases List.mem_append.mp hx with hx1 | hx2
    · exact hinv.entryPath x (hmemrest x hx1)
    · obtain ⟨ed, hedmem, hnode, hg, hest, hrev⟩ := mem_mkEntries hx2
      constructor
      · rw [hrev, hnode]
        simp only [List.reverse_cons]
        exact hE.1.snoc hedmem
      · rw [hrev, pathCost_cons, hg, ← hE.2]
        omega
  · intro p hp ed hed
    rcases List.mem_cons.mp hp with rfl | hp'
    · obtain ⟨x, hxmem, hnode, hg⟩ :=
        @mkEntries_cover h no e.gScore e.revEdges (adj e.node) ed hed
      exact Or.inr ⟨x, List.mem_append.mpr (Or.inr hxmem), hnode⟩
    · rcases hinv.closure p hp' ed hed with h1 | ⟨e', he', hn⟩
      · apply Or.inl
        rw [settledHas_cons]
        rw [h1]
        simp
      · rcases popMin_cases hpop he' with rfl | hm
        · apply Or.inl
          rw [settledHas_cons, ← hn]
          simp
        · exact Or.inr ⟨e', List.mem_append.mpr (Or.inl hm), hn⟩
  · rcases hinv.originCov with h1 | ⟨e', he', hn⟩
    · apply Or.inl
      rw [settledHas_cons, h1]
      simp
    · rcases popMin_cases hpop he' with rfl | hm
      · apply Or.inl
        rw [settledHas_cons, ← hn]
        simp
      · exact Or.inr ⟨e', List.mem_append.mpr (Or.inl hm), hn⟩
  · rw [settledHas_cons, hinv.destFree]
    simp [hd]
  · intro x hx
    rcases List.mem_append.mp hx with hx1 | hx2
    · exact hinv.nodesOk x (hmemrest x hx1)
    · obtain ⟨ed, hedmem, hnode, -⟩ := mem_mkEntries hx2
      rw [hnode]
      exact hadj e.node ed hedmem

/-- Walking a path from a settled node: the end is settled, or the
frontier is nonempty. -/
theorem InvW_walk {adj : StationId → List Edge} {origin dest : StationId}
    {allNodes : List StationId} {settled : List (StationId × Nat)}
    {frontier : List Entry}
    (hinv : InvW adj origin dest allNodes settled frontier)
    {n z : StationId} {p : List Edge} (hp : IsPath adj n p z)
    (hn : settledHas settled n = true) :
    settledHas settled z = true ∨ frontier ≠ [] := by
  induction hp with
  | nil => exact Or.inl hn
  | cons hmem _ ih =>
    obtain ⟨d, hd⟩ := settledHas_iff.mp hn
    rcases hinv.closure _ hd _ hmem with h1 | ⟨e', he', -⟩
    · exact ih h1
    · exact Or.inr (by intro hcontra; rw [hcontra] at he'; cases he')

/-- Cover: any node with a path from the origin is settled, or the
frontier is nonempty. -/
theorem InvW_cover {adj : StationId → List Edge} {origin dest : StationId}
    {allNodes : List StationId} {settled : List (StationId × Nat)}
    {frontier : List Entry}
    (hinv : InvW adj origin dest allNodes settled frontier)
    {z : StationId} {p : List Edge} (hp : IsPath adj origin p z) :
    settledHas settled z = true ∨ frontier ≠ [] := by
  rcases hinv.originCov with h1 | ⟨e', he', -⟩
  · exact InvW_walk hinv hp h1
  · exact Or.inr (by intro hcontra; rw [hcontra] at he'; cases he')

/-- Soundness of the loop: a successful result is a real path from the
origin to the destination whose edge costs sum to the reported total. -/
theorem aStarLoop_sound (adj : StationId → List Edge) (h : StationId → Nat)
    (origin dest : StationId) (allNodes : List StationId)
    (settled : List (StationId × Nat)) (frontier : List Entry) (no : Nat) :
    (∀ e ∈ frontier,
      IsPath adj origin e.revEdges.reverse e.node ∧ pathCost e.revEdges = e.gScore) →
    ∀ revEs c, aStarLoop adj h dest allNodes settled frontier no = some (revEs, c) →
    IsPath adj origin revEs.reverse dest ∧ pathCost revEs.reverse = c := by
  induction settled, frontier, no using aStarLoop.induct adj h dest allNodes with
  | case1 settled frontier no hpop =>
    intro _ revEs c hres
    rw [aStarLoop_empty adj h dest allNodes settled no hpop] at hres
    cases hres
  | case2 settled frontier no e rest hpop hd =>
    intro hf revEs c hres
    rw [aStarLoop_found adj h dest allNodes settled no hpop hd] at hres
    obtain ⟨rfl, rfl⟩ := by
      simpa using hres
    have := hf e (popMin_mem hpop)
    refine ⟨by rw [← hd]; exact this.1, by rw [pathCost_reverse]; exact this.2⟩
  | case3 settled frontier no e rest hpop hd hc ih =>
    intro hf revEs c hres
    rw [aStarLoop_skip adj h dest allNodes settled no hpop hd hc] at hres
    have hmemrest : ∀ x ∈ rest, x ∈ frontier := by
      intro x hx
      exact (popMin_perm hpop).mem_iff.mpr (List.mem_cons_of_mem e hx)
    exact ih (fun x hx => hf x (hmemrest x hx)) revEs c hres
  | case4 settled frontier no e rest hpop hd hc ih =>
    intro hf revEs c hres
    rw [aStarLoop_settle adj h dest allNodes settled no hpop hd
      (by rw [Bool.not_eq_true] at hc; exact hc)] at hres
    have hmemrest : ∀ x ∈ rest, x ∈ frontier := by
      intro x hx
      exact (popMin_perm hpop).mem_iff.mpr (List.mem_cons_of_mem e hx)
    apply ih _ revEs c hres
    intro x hx
    rcases List.mem_append.mp hx with hx1 | hx2
    · exact hf x (hmemrest x hx1)
    · obtain ⟨ed, hedmem, hnode, hg, hest, hrev⟩ := mem_mkEntries hx2
      have hE := hf e (popMin_mem hpop)
      constructor
      · rw [hrev, hnode]
        simp only [List.reverse_cons]
        exact hE.1.snoc hedmem
      · rw [hrev, pathCost_cons, hg, ← hE.2]
        omega

/-- Completeness of the loop: if some path from origin to destination
exists, the loop does not return `none`. -/
theorem aStarLoop_complete (adj : StationId → List Edge) (h : StationId → Nat)
    (origin dest : StationId) (allNodes : List StationId)
    (hadj : ∀ n, ∀ ed ∈ adj n, ed.dst ∈ allNodes)
    (settled : List (StationId × Nat)) (frontier : List Entry) (no : Nat) :
    InvW adj origin dest allNodes settled frontier →
    (∃ p, IsPath adj origin p dest) →
    (aStarLoop adj h dest allNodes settled frontier no).isSome = true := by
  induction settled, frontier, no using aStarLoop.induct adj h dest allNodes with
  | case1 settled frontier no hpop =>
    intro hinv hpath
    obtain rfl := popMin_none hpop
    obtain ⟨p, hp⟩ := hpath
    rcases InvW_cover hinv hp with h1 | h1
    · rw [hinv.destFree] at h1
      cases h1
    · exact absurd rfl h1
  | case2 settled frontier no e rest hpop hd =>
    intro hinv hpath
    rw [aStarLoop_found adj h dest allNodes settled no hpop hd]
    rfl
  | case3 settled frontier no e rest hpop hd hc ih =>
    intro hinv hpath
    rw [aStarLoop_skip adj h dest allNodes settled no hpop hd hc]
    exact ih (InvW_skip hinv hpop hc) hpath
  | case4 settled frontier no e rest hpop hd hc ih =>
    intro hinv hpath
    rw [aStarLoop_settle adj h dest allNodes settled no hpop hd
      (by rw [Bool.not_eq_true] at hc; exact hc)]
    exact ih (InvW_settle hadj hinv hpop hd) hpath

/-! ## Optimality of the search loop (consistent heuristic) -/

/-- Consistency of the heuristic relative to an adjacency structure. -/
def Consistent (adj : StationId → List Edge) (h : StationId → Nat) : Prop :=
  ∀ n, ∀ ed ∈ adj n, h n ≤ ed.cost + h ed.dst

theorem consistent_telescope {adj : StationId → List Edge} {h : StationId → Nat}
    (hcons : Consistent adj h) {n z : StationId} {p : List Edge}
    (hp : IsPath adj n p z) : h n ≤ pathCost p + h z := by
  induction hp with
  | nil => simp
  | @cons s t ed es hmem _ ih =>
    have h1 := hcons s ed hmem
    rw [pathCost_cons]
    omega

/-- Strong search invariant, sufficient for optimality of the returned
cost under a consistent heuristic. -/
structure Inv (adj : StationId → List Edge) (h : StationId → Nat)
    (origin dest : StationId) (allNodes : List StationId)
    (settled : List (StationId × Nat)) (frontier : List Entry) : Prop where
  entryPath : ∀ e ∈ frontier,
    IsPath adj origin e.revEdges.reverse e.node ∧ pathCost e.revEdges = e.gScore ∧
      e.est = e.gScore + h e.node
  settledSound : ∀ p ∈ settled, ∃ es, IsPath adj origin es p.1 ∧ pathCost es = p.2
  settledMin : ∀ p ∈ settled, ∀ es, IsPath adj origin es p.1 → p.2 ≤ pathCost es
  relaxed : ∀ p ∈ settled, ∀ ed ∈ adj p.1,
    (∃ d2, (ed.dst, d2) ∈ settled) ∨
      (∃ e ∈ frontier, e.node = ed.dst ∧ e.gScore ≤ p.2 + ed.cost)
  originCov : (∃ d0, (origin, d0) ∈ settled) ∨
      (∃ e ∈ frontier, e.node = origin ∧ e.gScore = 0)
  destFree : settledHas settled dest = false
  nodesOk : ∀ e ∈ frontier, e.node ∈ allNodes

/-- Walking a path whose start is settled with a value at most `c`: the
end is settled, or the path crosses an entry still on the frontier whose
cost bounds the prefix cost. -/
theorem Inv_walk {adj : StationId → List Edge} {h : StationId → Nat}
    {origin dest : StationId} {allNodes : List StationId}
    {settled : List (StationId × Nat)} {frontier : List Entry}
    (hinv : Inv adj h origin dest allNodes settled frontier) :
    ∀ {n z : StationId} {p : List Edge}, IsPath adj n p z →
    ∀ d c, (n, d) ∈ settled → d ≤ c →
    (∃ dz, (z, dz) ∈ settled) ∨
      (∃ e ∈ frontier, ∃ p1 p2, p = p1 ++ p2 ∧ IsPath adj e.node p2 z ∧
        e.gScore ≤ c + pathCost p1) := by
  intro n z p hp
  induction hp with
  | nil m =>
    intro d c hd _
    exact Or.inl ⟨d, hd⟩
  | cons hmem htail ih =>
    rename_i s t ed es
    intro d c hd hc
    rcases hinv.relaxed _ hd _ hmem with ⟨d2, hd2⟩ | ⟨e', he', hn, hg⟩
    · obtain ⟨es0, hes0, hcost0⟩ := hinv.settledSound _ hd
      have hext : IsPath adj origin (es0 ++ [ed]) ed.dst := hes0.snoc hmem
      have hmin := hinv.settledMin _ hd2 _ hext
      rw [pathCost_append] at hmin
      have hd2c : d2 ≤ c + ed.cost := by
        simp only [pathCost_cons, pathCost_nil] at hmin
        omega
      rcases ih d2 (c + ed.cost) hd2 hd2c with hA | ⟨e', he', p1, p2, hsplit, hp2, hg⟩
      · exact Or.inl hA
      · refine Or.inr ⟨e', he', ed :: p1, p2, by simp [hsplit], hp2, ?_⟩
        rw [pathCost_cons]
        omega
    · refine Or.inr ⟨e', he', [ed], es, rfl, by rw [hn]; exact htail, ?_⟩
      simp only [pathCost_cons, pathCost_nil]
      omega

/-- Cover: any node with a path from the origin is settled, or the path
crosses a frontier entry whose cost bounds the prefix cost. -/
theorem Inv_cover {adj : StationId → List Edge} {h : StationId → Nat}
    {origin dest : StationId} {allNodes : List StationId}
    {settled : List (StationId × Nat)} {frontier : List Entry}
    (hinv : Inv adj h origin dest allNodes settled frontier)
    {z : StationId} {p : List Edge} (hp : IsPath adj origin p z) :
    (∃ dz, (z, dz) ∈ settled) ∨
      (∃ e ∈ frontier, ∃ p1 p2, p = p1 ++ p2 ∧ IsPath adj e.node p2 z ∧
        e.gScore ≤ pathCost p1) := by
  rcases hinv.originCov with ⟨d0, hd0⟩ | ⟨e', he', hn, hg0⟩
  · have hd00 : d0 ≤ 0 := by
      have := hinv.settledMin _ hd0 [] (IsPath.nil origin)
      simpa [pathCost_nil] using this
    rcases Inv_walk hinv hp d0 0 hd0 hd00 with hA | ⟨e', he', p1, p2, hsplit, hp2, hg⟩
    · exact Or.inl hA
    · exact Or.inr ⟨e', he', p1, p2, hsplit, hp2, by omega⟩
  · refine Or.inr ⟨e', he', [], p, rfl, by rw [hn]; exact hp, ?_⟩
    rw [hg0]
    exact Nat.zero_le _

/-- Key A* argument: a popped entry for an unsettled node carries the
minimum cost over all paths from the origin to that node. -/
theorem popped_min {adj : StationId → List Edge} {h : StationId → Nat}
    {origin dest : StationId} {allNodes : List StationId}
    {settled : List (StationId × Nat)} {frontier rest : List Entry} {e : Entry}
    (hcons : Consistent adj h)
    (hinv : Inv adj h origin dest allNodes settled frontier)
    (hpop : popMin frontier = some (e, rest))
    (hunsettled : settledHas settled e.node = false) :
    ∀ p, IsPath adj origin p e.node → e.gScore ≤ pathCost p := by
  intro p hp
  rcases Inv_cover hinv hp with ⟨dz, hdz⟩ | ⟨e', he', p1, p2, hsplit, hp2, hg⟩
  · exact absurd (settledHas_iff.mpr ⟨dz, hdz⟩) (by rw [hunsettled]; decide)
  · have hest := popMin_min_est hpop e' he'
    have h1 := (hinv.entryPath e (popMin_mem hpop)).2.2
    have h2 := (hinv.entryPath e' he').2.2
    have htel : h e'.node ≤ pathCost p2 + h e.node := consistent_telescope hcons hp2
    rw [hsplit, pathCost_append]
    omega

theorem Inv_skip {adj : StationId → List Edge} {h : StationId → Nat}
    {origin dest : StationId} {allNodes : List StationId}
    {settled : List (StationId × Nat)} {frontier rest : List Entry} {e : Entry}
    (hinv : Inv adj h origin dest allNodes settled frontier)
    (hpop : popMin frontier = some (e, rest))
    (hc : (settledHas settled e.node || !(allNodes.contains e.node)) = true) :
    Inv adj h origin dest allNodes settled rest := by
  have hmemrest : ∀ x ∈ rest, x ∈ frontier := by
    intro x hx
    exact (popMin_perm hpop).mem_iff.mpr (List.mem_cons_of_mem e hx)
  have hset : settledHas settled e.node = true :=
    skip_cond_settled hc (hinv.nodesOk e (popMin_mem hpop))
  obtain ⟨du, hdu⟩ := settledHas_iff.mp hset
  refine ⟨?_, hinv.settledSound, hinv.settledMin, ?_, ?_, hinv.destFree, ?_⟩
  · intro x hx
    exact hinv.entryPath x (hmemrest x hx)
  · intro p hp ed hed
    rcases hinv.relaxed p hp ed hed with h1 | ⟨e', he', hn, hg⟩
    · exact Or.inl h1
    · rcases popMin_cases hpop he' with rfl | hm
      · exact Or.inl ⟨du, by rw [← hn]; exact hdu⟩
      · exact Or.inr ⟨e', hm, hn, hg⟩
  · rcases hinv.originCov with h1 | ⟨e', he', hn, hg0⟩
    · exact Or.inl h1
    · rcases popMin_cases hpop he' with rfl | hm
      · exact Or.inl ⟨du, by rw [← hn]; exact hdu⟩
      · exact Or.inr ⟨e', hm, hn, hg0⟩
  · intro x hx
    exact hinv.nodesOk x (hmemrest x hx)

theorem Inv_settle {adj : StationId → List Edge} {h : StationId → Nat}
    {origin dest : StationId} {allNodes : List StationId}
    {settled : List (StationId × Nat)} {frontier rest : List Entry} {e : Entry}
    {no : Nat}
    (hadj : ∀ n, ∀ ed ∈ adj n, ed.dst ∈ allNodes)
    (hcons : Consistent adj h)
    (hinv : Inv adj h origin dest allNodes settled frontier)
    (hpop : popMin frontier = some (e, rest))
    (hd : ¬ e.node = dest)
    (hc : (settledHas settled e.node || !(allNodes.contains e.node)) = false) :
    Inv adj h origin dest allNodes ((e.node, e.gScore) :: settled)
      (rest ++ mkEntries h no e.gScore e.revEdges (adj e.node)) := by
  have hmemrest : ∀ x ∈ rest, x ∈ frontier := by
    intro x hx
    exact (popMin_perm hpop).mem_iff.mpr (List.mem_cons_of_mem e hx)
  have hunsettled : settledHas settled e.node = false := by
    rcases Bool.or_eq_false_iff.mp hc with ⟨h1, -⟩
    exact h1
  have hE := hinv.entryPath e (popMin_mem hpop)
  have hmin := popped_min hcons hinv hpop hunsettled
  refine ⟨?_, ?_, ?_, ?_, ?_, ?_, ?_⟩
  · intro x hx
    rcases List.mem_append.mp hx with hx1 | hx2
    · exact hinv.entryPath x (hmemrest x hx1)
    · obtain ⟨ed, hedmem, hnode, hg, hest, hrev⟩ := mem_mkEntries hx2
      refine ⟨?_, ?_, ?_⟩
      · rw [hrev, hnode]
        simp only [List.reverse_cons]
        exact hE.1.snoc hedmem
      · rw [hrev, pathCost_cons, hg, ← hE.2.1]
        omega
      · exact hest
  · intro p hp
    rcases List.mem_cons.mp hp with rfl | hp'
    · exact ⟨e.revEdges.reverse, hE.1, by rw [pathCost_reverse]; exact hE.2.1⟩
    · exact hinv.settledSound p hp'
  · intro p hp
    rcases List.mem_cons.mp hp with rfl | hp'
    · exact fun es hes => hmin es hes
    · exact hinv.settledMin p hp'
  · intro p hp ed hed
    rcases List.mem_cons.mp hp with rfl | hp'
    · obtain ⟨x, hxmem, hnode, hg⟩ :=
        @mkEntries_cover h no e.gScore e.revEdges (adj e.node) ed hed
      exact Or.inr ⟨x, List.mem_append.mpr (Or.inr hxmem), hnode, le_of_eq hg⟩
    · rcases hinv.relaxed p hp' ed hed with ⟨d2, hd2⟩ | ⟨e', he', hn, hg⟩
      · exact Or.inl ⟨d2, List.mem_cons_of_mem _ hd2⟩
      · rcases popMin_cases hpop he' with rfl | hm
        · exact Or.inl ⟨e'.gScore, by rw [← hn]; exact List.mem_cons_self _ _⟩
        · exact Or.inr ⟨e', List.mem_append.mpr (Or.inl hm), hn, hg⟩
  · rcases hinv.originCov with ⟨d0, hd0⟩ | ⟨e', he', hn, hg0⟩
    · exact Or.inl ⟨d0, List.mem_cons_of_mem _ hd0⟩
    · rcases popMin_cases hpop he' with rfl | hm
      · exact Or.inl ⟨e'.gScore, by rw [← hn]; exact List.mem_cons_self _ _⟩
      · exact Or.inr ⟨e', List.mem_append.mpr (Or.inl hm), hn, hg0⟩
  · rw [settledHas_cons, hinv.destFree]
    simp [hd]
  · intro x hx
    rcases List.mem_append.mp hx with hx1 | hx2
    · exact hinv.nodesOk x (hmemrest x hx1)
    · obtain ⟨ed, hedmem, hnode, -⟩ := mem_mkEntries hx2
      rw [hnode]
      exact hadj e.node ed hedmem

/-- Optimality of the loop: under a consistent heuristic, the returned
total cost is minimal over all paths from origin to destination. -/
theorem aStarLoop_opt (adj : StationId → List Edge) (h : StationId → Nat)
    (origin dest : StationId) (allNodes : List StationId)
    (hadj : ∀ n, ∀ ed ∈ adj n, ed.dst ∈ allNodes)
    (hcons : Consistent adj h)
    (settled : List (StationId × Nat)) (frontier : List Entry) (no : Nat) :
    Inv adj h origin dest allNodes settled frontier →
    ∀ revEs c, aStarLoop adj h dest allNodes settled frontier no = some (revEs, c) →
    ∀ p, IsPath adj origin p dest → c ≤ pathCost p := by
  induction settled, frontier, no using aStarLoop.induct adj h dest allNodes with
  | case1 settled frontier no hpop =>
    intro _ revEs c hres
    rw [aStarLoop_empty adj h dest allNodes settled no hpop] at hres
    cases hres
  | case2 settled frontier no e rest hpop hd =>
    intro hinv revEs c hres
    rw [aStarLoop_found adj h dest allNodes settled no hpop hd] at hres
    obtain ⟨rfl, rfl⟩ := by
      simpa using hres
    intro p hp
    have hunsettled : settledHas settled e.node = false := by
      rw [hd]
      exact hinv.destFree
    exact popped_min hcons hinv hpop hunsettled p (by rw [hd]; exact hp)
  | case3 settled frontier no e rest hpop hd hc ih =>
    intro hinv revEs c hres
    rw [aStarLoop_skip adj h dest allNodes settled no hpop hd hc] at hres
    exact ih (Inv_skip hinv hpop hc) revEs c hres
  | case4 settled frontier no e rest hpop hd hc ih =>
    intro hinv revEs c hres
    have hc' : (settledHas settled e.node || !(allNodes.contains e.node)) = false := by
      rw [Bool.not_eq_true] at hc
      exact hc
    rw [aStarLoop_settle adj h dest allNodes settled no hpop hd hc'] at hres
    exact ih (Inv_settle hadj hcons hinv hpop hd hc') revEs c hres

/-! ## Top-level properties of find_path -/

theorem stationMem_iff {g : Graph} {n : StationId} :
    stationMem g n = true ↔ ∃ s ∈ g.stations, s.id = n := by
  simp [stationMem, List.any_eq_true]

theorem hadjG (g : Graph) (origin : StationId) :
    ∀ n, ∀ ed ∈ adjE g.edges n, ed.dst ∈ allNodesG g origin := by
  intro n ed hed
  rcases mem_adjE.mp hed with ⟨hmem, -⟩
  exact List.mem_cons_of_mem _ (List.mem_map_of_mem _ hmem)

theorem InvW_init (adj : StationId → List Edge) (h : StationId → Nat)
    (origin dest : StationId) (allNodes : List StationId)
    (hon : origin ∈ allNodes) :
    InvW adj origin dest allNodes [] [⟨origin, 0, h origin, 0, []⟩] := by
  refine ⟨?_, ?_, ?_, rfl, ?_⟩
  · intro e he
    simp only [List.mem_singleton] at he
    subst he
    exact ⟨IsPath.nil origin, rfl⟩
  · intro p hp
    cases hp
  · exact Or.inr ⟨_, List.mem_singleton.mpr rfl, rfl⟩
  · intro e he
    simp only [List.mem_singleton] at he
    subst he
    exact hon

theorem Inv_init (adj : StationId → List Edge) (h : StationId → Nat)
    (origin dest : StationId) (allNodes : List StationId)
    (hon : origin ∈ allNodes) :
    Inv adj h origin dest allNodes [] [⟨origin, 0, h origin, 0, []⟩] := by
  refine ⟨?_, ?_, ?_, ?_, ?_, rfl, ?_⟩
  · intro e he
    simp only [List.mem_singleton] at he
    subst he
    exact ⟨IsPath.nil origin, rfl, (Nat.zero_add _).symm⟩
  · intro p hp
    cases hp
  · intro p hp
    cases hp
  · intro p hp
    cases hp
  · exact Or.inr ⟨_, List.mem_singleton.mpr rfl, rfl, rfl⟩
  · intro e he
    simp only [List.mem_singleton] at he
    subst he
    exact hon

/-- A query naming an absent origin or destination fails immediately
with `UnknownStationError`. -/
theorem find_path_unknown {g : Graph} {h : StationId → Nat}
    {origin dest : StationId} {t : Option Nat}
    (hmiss : stationMem g origin = false ∨ stationMem g dest = false) :
    find_path g h origin dest t = .error .UnknownStationError := by
  unfold find_path
  rcases hmiss with h1 | h1
  · rw [if_pos (by rw [h1]; simp)]
  · rw [if_pos (by rw [h1]; simp)]

/-- Elimination of a successful query: both endpoints are stations, and
the result is assembled from a successful run of the loop. -/
theorem find_path_ok_elim {g : Graph} {h : StationId → Nat}
    {origin dest : StationId} {t : Option Nat} {r : PathResult}
    (hr : find_path g h origin dest t = .ok r) :
    stationMem g origin = true ∧ stationMem g dest = true ∧
    ∃ revEs, aStarLoop (adjE g.edges) h dest (allNodesG g origin) []
        [⟨origin, 0, h origin, 0, []⟩] 1 = some (revEs, r.total) ∧
      r = ⟨origin :: revEs.reverse.map (fun ed => ed.dst), revEs.reverse, r.total⟩ := by
  unfold find_path at hr
  by_cases hcond : (!(stationMem g origin) || !(stationMem g dest)) = true
  · rw [if_pos hcond] at hr
    cases hr
  · rw [if_neg hcond] at hr
    have hcond' : (!(stationMem g origin) || !(stationMem g dest)) = false :=
      Bool.eq_false_iff.mpr hcond
    rcases Bool.or_eq_false_iff.mp hcond' with ⟨h1, h2⟩
    have hmem1 : stationMem g origin = true := by simpa using h1
    have hmem2 : stationMem g dest = true := by simpa using h2
    cases hloop : aStarLoop (adjE g.edges) h dest (allNodesG g origin) []
        [⟨origin, 0, h origin, 0, []⟩] 1 with
    | none =>
      rw [hloop] at hr
      cases hr
    | some pr =>
      obtain ⟨revEs, c⟩ := pr
      rw [hloop] at hr
      cases hr
      exact ⟨hmem1, hmem2, revEs, rfl, rfl⟩

/-- Soundness of a successful query: the returned edges form a real
path from origin to destination, their costs sum to the reported total,
and the station sequence is the origin followed by the edge heads. -/
theorem find_path_ok_sound {g : Graph} {h : StationId → Nat}
    {origin dest : StationId} {t : Option Nat} {r : PathResult}
    (hr : find_path g h origin dest t = .ok r) :
    IsPath (adjE g.edges) origin r.edges dest ∧ pathCost r.edges = r.total ∧
      r.path = origin :: r.edges.map (fun ed => ed.dst) := by
  obtain ⟨-, -, revEs, hloop, hrr⟩ := find_path_ok_elim hr
  have hs := aStarLoop_sound (adjE g.edges) h origin dest (allNodesG g origin)
    [] [⟨origin, 0, h origin, 0, []⟩] 1
    (by
      intro e he
      simp only [List.mem_singleton] at he
      subst he
      exact ⟨IsPath.nil origin, rfl⟩)
    revEs r.total hloop
  constructor
  · rw [hrr]
    exact hs.1
  constructor
  · rw [hrr]
    exact hs.2
  · rw [hrr]

/-- Completeness of a query: when the destination is reachable from the
origin and both are stations, the query succeeds. -/
theorem find_path_reachable_ok {g : Graph} {h : StationId → Nat}
    {origin dest : StationId} {t : Option Nat}
    (ho : stationMem g origin = true) (hd : stationMem g dest = true)
    (hreach : ∃ p, IsPath (adjE g.edges) origin p dest) :
    ∃ r, find_path g h origin dest t = .ok r := by
  have hc := aStarLoop_complete (adjE g.edges) h origin dest (allNodesG g origin)
    (hadjG g origin) [] [⟨origin, 0, h origin, 0, []⟩] 1
    (InvW_init (adjE g.edges) h origin dest (allNodesG g origin)
      (List.mem_cons_self _ _)) hreach
  cases hloop : aStarLoop (adjE g.edges) h dest (allNodesG g origin) []
      [⟨origin, 0, h origin, 0, []⟩] 1 with
  | none =>
    rw [hloop] at hc
    cases hc
  | some pr =>
    obtain ⟨revEs, c⟩ := pr
    refine ⟨⟨origin :: revEs.reverse.map (fun ed => ed.dst), revEs.reverse, c⟩, ?_⟩
    unfold find_path
    rw [if_neg (by rw [ho, hd]; decide), hloop]

/-- A query between stations with no connecting path reports
`NotFoundError`. -/
theorem find_path_unreachable {g : Graph} {h : StationId → Nat}
    {origin dest : StationId} {t : Option Nat}
    (ho : stationMem g origin = true) (hd : stationMem g dest = true)
    (hunreach : ¬ ∃ p, IsPath (adjE g.edges) origin p dest) :
    find_path g h origin dest t = .error .NotFoundError := by
  cases hloop : aStarLoop (adjE g.edges) h dest (allNodesG g origin) []
      [⟨origin, 0, h origin, 0, []⟩] 1 with
  | none =>
    unfold find_path
    rw [if_neg (by rw [ho, hd]; decide), hloop]
  | some pr =>
    obtain ⟨revEs, c⟩ := pr
    exfalso
    have hs := aStarLoop_sound (adjE g.edges) h origin dest (allNodesG g origin)
      [] [⟨origin, 0, h origin, 0, []⟩] 1
      (by
        intro e he
        simp only [List.mem_singleton] at he
        subst he
        exact ⟨IsPath.nil origin, rfl⟩)
      revEs c hloop
    exact hunreach ⟨revEs.reverse, hs.1⟩

/-- Consistency of a heuristic over a graph's edge list transfers to its
adjacency structure. -/
theorem consistent_of_edges {g : Graph} {h : StationId → Nat}
    (hcons : ∀ ed ∈ g.edges, h ed.src ≤ ed.cost + h ed.dst) :
    Consistent (adjE g.edges) h := by
  intro n ed hed
  rcases mem_adjE.mp hed with ⟨hmem, hsrc⟩
  have := hcons ed hmem
  rw [hsrc] at this
  exact this

/-- Optimality of a successful query under a consistent heuristic: the
reported total is minimal over all paths from origin to destination. -/
theorem find_path_ok_min {g : Graph} {h : StationId → Nat}
    {origin dest : StationId} {t : Option Nat} {r : PathResult}
    (hcons : ∀ ed ∈ g.edges, h ed.src ≤ ed.cost + h ed.dst)
    (hr : find_path g h origin dest t = .ok r) :
    ∀ p, IsPath (adjE g.edges) origin p dest → r.total ≤ pathCost p := by
  obtain ⟨-, -, revEs, hloop, -⟩ := find_path_ok_elim hr
  exact aStarLoop_opt (adjE g.edges) h origin dest (allNodesG g origin)
    (hadjG g origin) (consistent_of_edges hcons) [] [⟨origin, 0, h origin, 0, []⟩] 1
    (Inv_init (adjE g.edges) h origin dest (allNodesG g origin)
      (List.mem_cons_self _ _)) revEs r.total hloop

/-! ## The three-station example from the specification -/

def exA : Station := ⟨0, "A", "L1", 0, 0⟩

def exB : Station := ⟨1, "B", "L1", 0, 0⟩

def exC : Station := ⟨2, "C", "L2", 0, 0⟩

def exE01 : Edge := ⟨0, 1, .RIDE, 3⟩

def exE12 : Edge := ⟨1, 2, .RIDE, 2⟩

def exE02 : Edge := ⟨0, 2, .TRANSFER, 10⟩

def exGraph : Graph := ⟨[exA, exB, exC], [exE01, exE12, exE02]⟩

/-- The zero heuristic (trivially admissible and consistent). -/
def hZero : StationId → Nat := fun _ => 0

theorem exGraph_loop_eval :
    aStarLoop (adjE exGraph.edges) hZero 2 (allNodesG exGraph 0) []
      [⟨0, 0, hZero 0, 0, []⟩] 1 = some ([exE12, exE01], 5) := by
  have h1 := @aStarLoop_settle (adjE exGraph.edges) hZero 2 (allNodesG exGraph 0)
    [] 1 [⟨0, 0, 0, 0, []⟩] ⟨0, 0, 0, 0, []⟩ [] rfl (by decide) (by decide)
  have h2 := @aStarLoop_settle (adjE exGraph.edges) hZero 2 (allNodesG exGraph 0)
    [(0, 0)] 3 [⟨1, 3, 3, 1, [exE01]⟩, ⟨2, 10, 10, 2, [exE02]⟩]
    ⟨1, 3, 3, 1, [exE01]⟩ [⟨2, 10, 10, 2, [exE02]⟩] rfl (by decide) (by decide)
  have h3 := @aStarLoop_found (adjE exGraph.edges) hZero 2 (allNodesG exGraph 0)
    [(1, 3), (0, 0)] 4 [⟨2, 10, 10, 2, [exE02]⟩, ⟨2, 5, 5, 3, [exE12, exE01]⟩]
    ⟨2, 5, 5, 3, [exE12, exE01]⟩ [⟨2, 10, 10, 2, [exE02]⟩] rfl rfl
  exact h1.trans (h2.trans h3)

/-! ## Graph builder

Modelled from the spec: `build_graph(stations, trips_by_line,
transfers_by_line) -> Graph` (§4.1).  The repository contains no in-repo
graph construction (it delegates to a third-party library); this follows
the specification: sort each trip's stop rows by sequence number, emit
one RideEdge per consecutive stop pair with cost the difference of the
recorded offsets (failing with `MalformedFeedError` when negative), and
one TransferEdge per transfer row with the declared walking duration
(failing with `MalformedFeedError` when a station is unknown). -/

inductive BuildError
  | MalformedFeedError
deriving DecidableEq

/-- One stop-time row of a trip. -/
structure StopTime where
  station : StationId
  arrival_offset : Nat
  departure_offset : Nat
  seq : Nat
deriving DecidableEq

/-- A trip: identifier, route identifier, stop-time rows. -/
structure Trip where
  id : Nat
  route : Nat
  stops : List StopTime
deriving DecidableEq

/-- A transfer row. -/
structure Transfer where
  from_station : StationId
  to_station : StationId
  walk_time : Nat
deriving DecidableEq

/-- Insertion into a list sorted by sequence number. -/
def insertBySeq (st : StopTime) : List StopTime → List StopTime
  | [] => [st]
  | a :: rest =>
    if st.seq ≤ a.seq then st :: a :: rest else a :: insertBySeq st rest

/-- Sort a trip's stop rows by their explicit sequence number. -/
def sortStops (l : List StopTime) : List StopTime :=
  l.foldr insertBySeq []

/-- Consecutive pairs of a list. -/
def consecPairs (l : List StopTime) : List (StopTime × StopTime) :=
  l.zip l.tail

/-- The RideEdge of one consecutive stop pair: cost is the difference
between the next stop's arrival offset and this stop's departure
offset. -/
def mkRide (a b : StopTime) : Edge :=
  ⟨a.station, b.station, .RIDE, b.arrival_offset - a.departure_offset⟩

/-- RideEdges of one trip's sorted stop rows; fails when an offset
difference is negative (out-of-order feed data). -/
def ridesOfStops : List StopTime → Except BuildError (List Edge)
  | [] => .ok []
  | [_] => .ok []
  | a :: b :: rest =>
    if b.arrival_offset < a.departure_offset then .error .MalformedFeedError
    else do
      let es ← ridesOfStops (b :: rest)
      .ok (mkRide a b :: es)

/-- RideEdges of all trips. -/
def ridesOfTrips : List Trip → Except BuildError (List Edge)
  | [] => .ok []
  | tr :: rest => do
    let es1 ← ridesOfStops (sortStops tr.stops)
    let es2 ← ridesOfTrips rest
    .ok (es1 ++ es2)

/-- The TransferEdge of one transfer row. -/
def transferEdge (t : Transfer) : Edge :=
  ⟨t.from_station, t.to_station, .TRANSFER, t.walk_time⟩

/-- Both endpoints of a transfer row are known stations. -/
def transferKnown (stations : List Station) (t : Transfer) : Bool :=
  stations.any (fun s => s.id == t.from_station) &&
    stations.any (fun s => s.id == t.to_station)

/-- TransferEdges of all transfer rows; fails when a row references an
unknown station. -/
def transfersToEdges (stations : List Station) :
    List Transfer → Except BuildError (List Edge)
  | [] => .ok []
  | t :: rest =>
    if transferKnown stations t then do
      let es ← transfersToEdges stations rest
      .ok (transferEdge t :: es)
    else .error .MalformedFeedError

/-- Modelled from the spec: the graph builder (§4.1).  Pure function of
its inputs; produces the station set plus the union of ride and
transfer edges. -/
def build_graph (stations : List Station) (trips : List Trip)
    (transfers : List Transfer) : Except BuildError Graph := do
  let rides ← ridesOfTrips trips
  let tedges ← transfersToEdges stations transfers
  .ok ⟨stations, rides ++ tedges⟩

/-- The expected ride edges of one trip. -/
def tripRides (tr : Trip) : List Edge :=
  (consecPairs (sortStops tr.stops)).map (fun pr => mkRide pr.1 pr.2)

theorem consecPairs_cons (a b : StopTime) (rest : List StopTime) :
    consecPairs (a :: b :: rest) = (a, b) :: consecPairs (b :: rest) := rfl

theorem ridesOfStops_ok_elim :
    ∀ {L : List StopTime} {es : List Edge}, ridesOfStops L = .ok es →
    es = (consecPairs L).map (fun pr => mkRide pr.1 pr.2) := by
  intro L
  induction L with
  | nil =>
    intro es hes
    cases hes
    rfl
  | cons a L ih =>
    cases L with
    | nil =>
      intro es hes
      cases hes
      rfl
    | cons b rest =>
      intro es hes
      unfold ridesOfStops at hes
      by_cases hab : b.arrival_offset < a.departure_offset
      · rw [if_pos hab] at hes
        cases hes
      · rw [if_neg hab] at hes
        cases hsub : ridesOfStops (b :: rest) with
        | error e =>
          rw [hsub] at hes
          cases hes
        | ok es0 =>
          rw [hsub] at hes
          cases hes
          rw [consecPairs_cons, List.map_cons, ih hsub]

theorem ridesOfStops_err :
    ∀ {L : List StopTime},
    (∃ pr ∈ consecPairs L, pr.2.arrival_offset < pr.1.departure_offset) →
    ridesOfStops L = .error .MalformedFeedError := by
  intro L
  induction L with
  | nil =>
    rintro ⟨pr, hpr, -⟩
    cases hpr
  | cons a L ih =>
    cases L with
    | nil =>
      rintro ⟨pr, hpr, -⟩
      cases hpr
    | cons b rest =>
      rintro ⟨pr, hpr, hbad⟩
      unfold ridesOfStops
      by_cases hab : b.arrival_offset < a.departure_offset
      · rw [if_pos hab]
      · rw [if_neg hab]
        rw [consecPairs_cons] at hpr
        rcases List.mem_cons.mp hpr with rfl | hm
        · exact absurd hbad hab
        · rw [ih ⟨pr, hm, hbad⟩]
          rfl

theorem ridesOfTrips_ok_elim :
    ∀ {trips : List Trip} {rides : List Edge}, ridesOfTrips trips = .ok rides →
    rides = (trips.map tripRides).flatten := by
  intro trips
  induction trips with
  | nil =>
    intro rides hr
    cases hr
    rfl
  | cons tr rest ih =>
    intro rides hr
    unfold ridesOfTrips at hr
    cases h1 : ridesOfStops (sortStops tr.stops) with
    | error e =>
      rw [h1] at hr
      cases hr
    | ok es1 =>
      rw [h1] at hr
      cases h2 : ridesOfTrips rest with
      | error e =>
        rw [h2] at hr
        cases hr
      | ok es2 =>
        rw [h2] at hr
        cases hr
        rw [List.map_cons, List.flatten_cons, ih h2,
          ridesOfStops_ok_elim h1]
        rfl

theorem ridesOfTrips_err :
    ∀ {trips : List Trip},
    (∃ tr ∈ trips, ∃ pr ∈ consecPairs (sortStops tr.stops),
      pr.2.arrival_offset < pr.1.departure_offset) →
    ridesOfTrips trips = .error .MalformedFeedError := by
  intro trips
  induction trips with
  | nil =>
    rintro ⟨tr, htr, -⟩
    cases htr
  | cons tr rest ih =>
    rintro ⟨tr', htr', hbad⟩
    unfold ridesOfTrips
    rcases List.mem_cons.mp htr' with rfl | hm
    · rw [ridesOfStops_err hbad]
      rfl
    · cases h1 : ridesOfStops (sortStops tr.stops) with
      | error e =>
        cases e
        rfl
      | ok es1 =>
        rw [ih ⟨tr', hm, hbad⟩]
        rfl

theorem transfersToEdges_ok_elim :
    ∀ {stations : List Station} {ts : List Transfer} {es : List Edge},
    transfersToEdges stations ts = .ok es → es = ts.map transferEdge := by
  intro stations ts
  induction ts with
  | nil =>
    intro es hes
    cases hes
    rfl
  | cons t rest ih =>
    intro es hes
    unfold transfersToEdges at hes
    by_cases hk : transferKnown stations t = true
    · rw [if_pos hk] at hes
      cases hsub : transfersToEdges stations rest with
      | error e =>
        rw [hsub] at hes
        cases hes
      | ok es0 =>
        rw [hsub] at hes
        cases hes
        rw [List.map_cons, ih hsub]
    · rw [if_neg hk] at hes
      cases hes

theorem transfersToEdges_err :
    ∀ {stations : List Station} {ts : List Transfer},
    (∃ t ∈ ts, transferKnown stations t = false) →
    transfersToEdges stations ts = .error .MalformedFeedError := by
  intro stations ts
  induction ts with
  | nil =>
    rintro ⟨t, ht, -⟩
    cases ht
  | cons t rest ih =>
    rintro ⟨t', ht', hbad⟩
    unfold transfersToEdges
    rcases List.mem_cons.mp ht' with rfl | hm
    · rw [if_neg (by rw [hbad]; decide)]
    · by_cases hk : transferKnown stations t = true
      · rw [if_pos hk, ih ⟨t', hm, hbad⟩]
        rfl
      · rw [if_neg hk]

theorem tripRides_etype {tr : Trip} {ed : Edge} (hed : ed ∈ tripRides tr) :
    ed.etype = EdgeType.RIDE := by
  rcases List.mem_map.mp hed with ⟨pr, -, rfl⟩
  rfl

theorem transferEdge_etype (t : Transfer) :
    (transferEdge t).etype = EdgeType.TRANSFER := rfl

/-- Successful `build_graph`: the graph's RIDE edges are exactly one
edge per consecutive stop pair of each trip, in order. -/
theorem build_graph_ok_rides {stations : List Station} {trips : List Trip}
    {transfers : List Transfer} {g : Graph}
    (hg : build_graph stations trips transfers = .ok g) :
    g.stations = stations ∧
    g.edges.filter (fun ed => ed.etype == EdgeType.RIDE) =
      (trips.map tripRides).flatten ∧
    g.edges.filter (fun ed => ed.etype == EdgeType.TRANSFER) =
      transfers.map transferEdge := by
  unfold build_graph at hg
  cases h1 : ridesOfTrips trips with
  | error e =>
    rw [h1] at hg
    cases hg
  | ok rides =>
    rw [h1] at hg
    cases h2 : transfersToEdges stations transfers with
    | error e =>
      rw [h2] at hg
      cases hg
    | ok tedges =>
      rw [h2] at hg
      cases hg
      obtain rfl := ridesOfTrips_ok_elim h1
      obtain rfl := transfersToEdges_ok_elim h2
      refine ⟨rfl, ?_, ?_⟩
      · rw [List.filter_append]
        have hr : ((trips.map tripRides).flatten.filter
            (fun ed => ed.etype == EdgeType.RIDE)) = (trips.map tripRides).flatten := by
          apply List.filter_eq_self.mpr
          intro ed hed
          rcases List.mem_flatten.mp hed with ⟨l, hl, hedl⟩
          rcases List.mem_map.mp hl with ⟨tr, -, rfl⟩
          rw [tripRides_etype hedl]
          rfl
        have ht : ((transfers.map transferEdge).filter
            (fun ed => ed.etype == EdgeType.RIDE)) = [] := by
          apply List.filter_eq_nil_iff.mpr
          intro ed hed
          rcases List.mem_map.mp hed with ⟨t, -, rfl⟩
          simp [transferEdge]
        rw [hr, ht, List.append_nil]
      · rw [List.filter_append]
        have hr : ((trips.map tripRides).flatten.filter
            (fun ed => ed.etype == EdgeType.TRANSFER)) = [] := by
          apply List.filter_eq_nil_iff.mpr
          intro ed hed
          rcases List.mem_flatten.mp hed with ⟨l, hl, hedl⟩
          rcases List.mem_map.mp hl with ⟨tr, -, rfl⟩
          rw [tripRides_etype hedl]
          decide
        have ht : ((transfers.map transferEdge).filter
            (fun ed => ed.etype == EdgeType.TRANSFER)) =
            transfers.map transferEdge := by
          apply List.filter_eq_self.mpr
          intro ed hed
          rcases List.mem_map.mp hed with ⟨t, -, rfl⟩
          rfl
        rw [hr, ht, List.nil_append]

/-- `build_graph` fails with `MalformedFeedError` when some consecutive
stop pair has a negative offset difference. -/
theorem build_graph_err {stations : List Station} {trips : List Trip}
    {transfers : List Transfer}
    (hbad : ∃ tr ∈ trips, ∃ pr ∈ consecPairs (sortStops tr.stops),
      pr.2.arrival_offset < pr.1.departure_offset) :
    build_graph stations trips transfers = .error .MalformedFeedError := by
  unfold build_graph
  rw [ridesOfTrips_err hbad]
  rfl

/-! ## Edge cost replacement (for monotonicity) -/

/-- Replace the cost of the `i`-th edge. -/
def bumpCost : List Edge → Nat → Nat → List Edge
  | [], _, _ => []
  | ed :: rest, 0, c => { ed with cost := c } :: rest
  | ed :: rest, i + 1, c => ed :: bumpCost rest i c

theorem bump_forward (E : List Edge) (i : Nat) (c : Nat) :
    ∀ ed ∈ E, ∃ ed2 ∈ bumpCost E i c, ed2.src = ed.src ∧ ed2.dst = ed.dst := by
  induction E generalizing i with
  | nil =>
    intro ed hed
    cases hed
  | cons a E ih =>
    intro ed hed
    cases i with
    | zero =>
      rcases List.mem_cons.mp hed with rfl | hm
      · exact ⟨{ ed with cost := c }, List.mem_cons_self _ _, rfl, rfl⟩
      · exact ⟨ed, List.mem_cons_of_mem _ hm, rfl, rfl⟩
    | succ j =>
      rcases List.mem_cons.mp hed with rfl | hm
      · exact ⟨ed, List.mem_cons_self _ _, rfl, rfl⟩
      · obtain ⟨ed2, h2, hs, hd⟩ := ih j ed hm
        exact ⟨ed2, List.mem_cons_of_mem _ h2, hs, hd⟩

theorem bump_backward (E : List Edge) (i : Nat) (c : Nat)
    (hbig : ∀ hi : i < E.length, (E.get ⟨i, hi⟩).cost ≤ c) :
    ∀ ed2 ∈ bumpCost E i c,
      ∃ ed ∈ E, ed.src = ed2.src ∧ ed.dst = ed2.dst ∧ ed.cost ≤ ed2.cost := by
  induction E generalizing i with
  | nil =>
    intro ed2 hed2
    cases hed2
  | cons a E ih =>
    cases i with
    | zero =>
      intro ed2 hed2
      rcases List.mem_cons.mp hed2 with rfl | hm
      · refine ⟨a, List.mem_cons_self _ _, rfl, rfl, ?_⟩
        have := hbig (by simp)
        simpa using this
      · exact ⟨ed2, List.mem_cons_of_mem _ hm, rfl, rfl, le_refl _⟩
    | succ j =>
      intro ed2 hed2
      rcases List.mem_cons.mp hed2 with rfl | hm
      · exact ⟨ed2, List.mem_cons_self _ _, rfl, rfl, le_refl _⟩
      · obtain ⟨ed, hed, hs, hd, hc⟩ := ih j
          (fun hj => by
            have := hbig (by simpa using Nat.succ_lt_succ hj)
            simpa using this) ed2 hm
        exact ⟨ed, List.mem_cons_of_mem _ hed, hs, hd, hc⟩

/-- Transfer a path with an edge-wise cost-bounded correspondence. -/
theorem IsPath_transfer_cost {E1 E2 : List Edge}
    (hrel : ∀ ed ∈ E1, ∃ ed2 ∈ E2, ed2.src = ed.src ∧ ed2.dst = ed.dst ∧
      ed2.cost ≤ ed.cost) :
    ∀ {s t : StationId} {p : List Edge}, IsPath (adjE E1) s p t →
    ∃ q, IsPath (adjE E2) s q t ∧ pathCost q ≤ pathCost p := by
  intro s t p hp
  induction hp with
  | nil n => exact ⟨[], IsPath.nil n, le_refl _⟩
  | @cons s' t' ed es hmem htail ih =>
    obtain ⟨hE1, hsrc⟩ := mem_adjE.mp hmem
    obtain ⟨ed2, hed2, hs, hd, hc⟩ := hrel ed hE1
    obtain ⟨q, hq, hqc⟩ := ih
    refine ⟨ed2 :: q, IsPath.cons (mem_adjE.mpr ⟨hed2, by rw [hs, hsrc]⟩) ?_, ?_⟩
    · rw [hd]
      exact hq
    · rw [pathCost_cons, pathCost_cons]
      omega

/-- Transfer a path with an edge-wise topological correspondence. -/
theorem IsPath_transfer_topo {E1 E2 : List Edge}
    (hrel : ∀ ed ∈ E1, ∃ ed2 ∈ E2, ed2.src = ed.src ∧ ed2.dst = ed.dst) :
    ∀ {s t : StationId} {p : List Edge}, IsPath (adjE E1) s p t →
    ∃ q, IsPath (adjE E2) s q t := by
  intro s t p hp
  induction hp with
  | nil n => exact ⟨[], IsPath.nil n⟩
  | @cons s' t' ed es hmem htail ih =>
    obtain ⟨hE1, hsrc⟩ := mem_adjE.mp hmem
    obtain ⟨ed2, hed2, hs, hd⟩ := hrel ed hE1
    obtain ⟨q, hq⟩ := ih
    refine ⟨ed2 :: q, IsPath.cons (mem_adjE.mpr ⟨hed2, by rw [hs, hsrc]⟩) ?_⟩
    rw [hd]
    exact hq

/-! ## StatsPatch (embedded from `shortest_paths.py`)

The Python class monkey-patches
`nx.classes.coreviews.AdjacencyView.__getitem__`: `__enter__` saves the
current function in `self._old_view_getitem` and installs a wrapper that
increments `self.counter`, appends the accessed node to
`self.search_path` and delegates to the saved function; `__exit__`
restores the saved function.  The attribute slot is modelled as a value
of `GetItemFn`; a wrapper closes over the value it replaced. -/

abbrev Node := Nat

/-- A value of the `AdjacencyView.__getitem__` attribute slot: the
library's original function, or a wrapper installed by `__enter__`
(closing over the previously installed value). -/
inductive GetItemFn
  | original
  | patched (saved : GetItemFn)
deriving DecidableEq

/-- Shared library state: the current value of
`nx.classes.coreviews.AdjacencyView.__getitem__`. -/
structure LibState where
  adjacencyGetItem : GetItemFn
deriving DecidableEq

/-- The `StatsPatch` object: constructor argument `g`, the access
counter, the recorded search path, and `_old_view_getitem` (absent
until `__enter__` runs). -/
structure StatsPatch where
  g : Graph
  counter : Nat
  search_path : List Node
  old : Option GetItemFn
deriving DecidableEq

/-- `StatsPatch.__init__`: counter 0, empty search path. -/
def StatsPatch.init (g : Graph) : StatsPatch := ⟨g, 0, [], none⟩

/-- `StatsPatch.__enter__`: save the current accessor in
`_old_view_getitem` and install the counting wrapper in the shared
library slot. -/
def statsEnter (p : StatsPatch) (lib : LibState) : StatsPatch × LibState :=
  ({ p with old := some lib.adjacencyGetItem },
    ⟨GetItemFn.patched lib.adjacencyGetItem⟩)

/-- `StatsPatch.__exit__` (the exception arguments are ignored):
restore the saved accessor.  (Calling it before `__enter__` would raise
`AttributeError` in Python; modelled as leaving the slot unchanged.) -/
def statsExit (p : StatsPatch) (exc : Option Nat) (lib : LibState) : LibState :=
  match p.old with
  | some f => ⟨f⟩
  | none => lib

/-- The body of `new_view_getitem`, as far as it touches the patch
object: increment the counter and append the accessed node. -/
def statsAccess (p : StatsPatch) (n : Node) : StatsPatch :=
  { p with counter := p.counter + 1, search_path := p.search_path ++ [n] }

/-- Events touching a `StatsPatch` object during its lifetime. -/
inductive PatchOp
  | access (n : Node)
  | enter
  | exitWith (exc : Option Nat)
deriving DecidableEq

/-- Run a sequence of events from `__init__`. -/
def runOps (g : Graph) (lib : LibState) (ops : List PatchOp) :
    StatsPatch × LibState :=
  ops.foldl
    (fun st op =>
      match op with
      | .access n => (statsAccess st.1 n, st.2)
      | .enter => statsEnter st.1 st.2
      | .exitWith exc => (st.1, statsExit st.1 exc st.2))
    (StatsPatch.init g, lib)

theorem patched_ne (f : GetItemFn) : GetItemFn.patched f ≠ f := by
  induction f with
  | original =>
    intro hcontra
    cases hcontra
  | patched f ih =>
    intro hcontra
    injection hcontra with h1
    exact ih h1

theorem runOps_counter_aux (ops : List PatchOp) :
    ∀ (p : StatsPatch) (lib : LibState), p.counter = p.search_path.length →
    (ops.foldl
      (fun st op =>
        match op with
        | .access n => (statsAccess st.1 n, st.2)
        | .enter => statsEnter st.1 st.2
        | .exitWith exc => (st.1, statsExit st.1 exc st.2))
      (p, lib)).1.counter =
    (ops.foldl
      (fun st op =>
        match op with
        | .access n => (statsAccess st.1 n, st.2)
        | .enter => statsEnter st.1 st.2
        | .exitWith exc => (st.1, statsExit st.1 exc st.2))
      (p, lib)).1.search_path.length := by
  induction ops with
  | nil =>
    intro p lib hp
    exact hp
  | cons op ops ih =>
    intro p lib hp
    cases op with
    | access n =>
      apply ih
      simp [statsAccess, hp]
    | enter =>
      apply ih
      simpa [statsEnter] using hp
    | exitWith exc =>
      apply ih
      simpa using hp

/-! ## Concrete evaluation of the example query -/

theorem find_path_exGraph_eq :
    find_path exGraph hZero 0 2 none =
      .ok ⟨[0, 1, 2], [exE01, exE12], 5⟩ := by
  unfold find_path
  rw [if_neg (by decide), exGraph_loop_eval]
  rfl

/-! ## Witness data for the graph builder -/

def wStop0 : StopTime := ⟨0, 0, 10, 1⟩

def wStop1 : StopTime := ⟨1, 20, 25, 2⟩

def wStop2 : StopTime := ⟨2, 40, 45, 3⟩

def wTripGood : Trip := ⟨0, 0, [wStop0, wStop1, wStop2]⟩

def wTripBad : Trip := ⟨1, 0, [⟨0, 0, 50, 1⟩, ⟨1, 20, 25, 2⟩]⟩

/-! ## Claim theorems -/

/-- C1: For the three-station example graph with RideEdge A–B of cost 3,
RideEdge B–C of cost 2 and TransferEdge A–C of cost 10 (stations A, B, C
modelled as ids 0, 1, 2), `find_path(A, C)` returns the path [A, B, C]
with total cost 5 — the two ride edges, not the single direct transfer
edge of cost 10. -/
theorem claim_C1_example_path :
    find_path exGraph hZero 0 2 none =
      .ok ⟨[0, 1, 2], [exE01, exE12], 5⟩ :=
  find_path_exGraph_eq

/-- C2: For every graph and every (origin, dest) pair whose endpoints
are stations and where dest is reachable from origin, `find_path`
returns a `PathResult` whose traversed edge costs sum exactly to its
reported total cost. -/
theorem claim_C2_cost_sum (g : Graph) (h : StationId → Nat)
    (origin dest : StationId) (t : Option Nat)
    (ho : stationMem g origin = true) (hd : stationMem g dest = true)
    (hreach : ∃ p, IsPath (adjE g.edges) origin p dest) :
    ∃ r, find_path g h origin dest t = .ok r ∧ pathCost r.edges = r.total := by
  obtain ⟨r, hr⟩ := find_path_reachable_ok ho hd hreach
  exact ⟨r, hr, (find_path_ok_sound hr).2.1⟩

theorem claim_C2_cost_sum_witness :
    ∃ r, find_path exGraph hZero 0 2 none = .ok r ∧ pathCost r.edges = r.total :=
  claim_C2_cost_sum exGraph hZero 0 2 none (by decide) (by decide)
    ⟨[exE01, exE12],
      IsPath.cons (by decide) (IsPath.cons (by decide) (IsPath.nil 2))⟩

/-- C3: `find_path` is a pure function of its graph and arguments, so
two calls with identical inputs produce identical `PathResult`s
(including edge order); and the frontier pop implements the tie-break
rule: the popped entry either has a strictly smaller estimated total
than any other entry, or has an equal estimate and was discovered no
later (smaller or equal insertion order). -/
theorem claim_C3_determinism :
    (∀ (g : Graph) (h : StationId → Nat) (origin dest : StationId) (t : Option Nat),
      find_path g h origin dest t = find_path g h origin dest t) ∧
    (∀ (l : List Entry) (e : Entry) (rest : List Entry), popMin l = some (e, rest) →
      ∀ e2 ∈ l, e.est < e2.est ∨ (e.est = e2.est ∧ e.order ≤ e2.order)) :=
  ⟨fun _ _ _ _ _ => rfl, fun _ _ _ hpop => popMin_min hpop⟩

theorem claim_C3_determinism_witness :
    (find_path exGraph hZero 0 2 none = find_path exGraph hZero 0 2 none) ∧
    ((⟨2, 0, 7, 3, []⟩ : Entry).est < (⟨1, 0, 7, 5, []⟩ : Entry).est ∨
      ((⟨2, 0, 7, 3, []⟩ : Entry).est = (⟨1, 0, 7, 5, []⟩ : Entry).est ∧
        (⟨2, 0, 7, 3, []⟩ : Entry).order ≤ (⟨1, 0, 7, 5, []⟩ : Entry).order)) :=
  ⟨claim_C3_determinism.1 exGraph hZero 0 2 none,
    claim_C3_determinism.2 [⟨1, 0, 7, 5, []⟩, ⟨2, 0, 7, 3, []⟩]
      ⟨2, 0, 7, 3, []⟩ [⟨1, 0, 7, 5, []⟩] (by decide)
      ⟨1, 0, 7, 5, []⟩ (by decide)⟩

/-- C4: For every graph and every (origin, dest) pair of stations with
no path from origin to dest, `find_path` returns `NotFoundError`
(reached when the frontier empties without popping the destination) and
never a partial path. -/
theorem claim_C4_notfound (g : Graph) (h : StationId → Nat)
    (origin dest : StationId) (t : Option Nat)
    (ho : stationMem g origin = true) (hd : stationMem g dest = true)
    (hunreach : ¬ ∃ p, IsPath (adjE g.edges) origin p dest) :
    find_path g h origin dest t = .error .NotFoundError :=
  find_path_unreachable ho hd hunreach

theorem claim_C4_notfound_witness :
    find_path exGraph hZero 2 0 none = .error .NotFoundError :=
  claim_C4_notfound exGraph hZero 2 0 none (by decide) (by decide)
    (by
      rintro ⟨p, hp⟩
      cases hp with
      | cons hmem htail =>
        rw [show adjE exGraph.edges 2 = [] from rfl] at hmem
        cases hmem)

/-- C5: the expansion trace of the search is collected by mutating the
shared library-internal accessor: entering `StatsPatch` always changes
the `nx.classes.coreviews.AdjacencyView.__getitem__` slot of the shared
library state, contradicting the requirement that the trace be exposed
only as an explicit return value or injected callback. -/
theorem claim_C5_mutation (p : StatsPatch) (lib : LibState) :
    (statsEnter p lib).2 ≠ lib := by
  intro hcontra
  have h1 : GetItemFn.patched lib.adjacencyGetItem = lib.adjacencyGetItem :=
    congrArg LibState.adjacencyGetItem hcontra
  exact patched_ne lib.adjacencyGetItem h1

/-- C6: a query whose origin or destination is absent from the graph's
station set fails immediately with `UnknownStationError`. -/
theorem claim_C6_unknown (g : Graph) (h : StationId → Nat)
    (origin dest : StationId) (t : Option Nat)
    (hmiss : (¬ ∃ s ∈ g.stations, s.id = origin) ∨
      (¬ ∃ s ∈ g.stations, s.id = dest)) :
    find_path g h origin dest t = .error .UnknownStationError := by
  apply find_path_unknown
  rcases hmiss with h1 | h1
  · exact Or.inl (Bool.eq_false_iff.mpr (fun hc => h1 (stationMem_iff.mp hc)))
  · exact Or.inr (Bool.eq_false_iff.mpr (fun hc => h1 (stationMem_iff.mp hc)))

theorem claim_C6_unknown_witness :
    find_path exGraph hZero 7 2 none = .error .UnknownStationError :=
  claim_C6_unknown exGraph hZero 7 2 none (Or.inl (by decide))

/-- C7: for every input feed, a successful `build_graph` emits exactly
one RideEdge per consecutive stop pair of each trip (each with cost the
difference of the recorded offsets, by definition of `tripRides`), it
fails with `MalformedFeedError` when such a difference is negative, and
it is a pure function of its inputs. -/
theorem claim_C7_build_graph :
    (∀ (stations : List Station) (trips : List Trip) (transfers : List Transfer)
        (g : Graph), build_graph stations trips transfers = .ok g →
      g.edges.filter (fun ed => ed.etype == EdgeType.RIDE) =
        (trips.map tripRides).flatten) ∧
    (∀ (stations : List Station) (trips : List Trip) (transfers : List Transfer),
      (∃ tr ∈ trips, ∃ pr ∈ consecPairs (sortStops tr.stops),
        pr.2.arrival_offset < pr.1.departure_offset) →
      build_graph stations trips transfers = .error .MalformedFeedError) ∧
    (∀ (stations : List Station) (trips : List Trip) (transfers : List Transfer),
      build_graph stations trips transfers = build_graph stations trips transfers) :=
  ⟨fun _ _ _ _ hg => (build_graph_ok_rides hg).2.1,
    fun _ _ _ hbad => build_graph_err hbad,
    fun _ _ _ => rfl⟩

theorem claim_C7_build_graph_witness :
    ((Graph.mk [exA, exB, exC] [⟨0, 1, .RIDE, 10⟩, ⟨1, 2, .RIDE, 15⟩]).edges.filter
        (fun ed => ed.etype == EdgeType.RIDE) =
      ([wTripGood].map tripRides).flatten) ∧
    build_graph [exA, exB, exC] [wTripBad] [] = .error .MalformedFeedError :=
  ⟨claim_C7_build_graph.1 [exA, exB, exC] [wTripGood] []
      (Graph.mk [exA, exB, exC] [⟨0, 1, .RIDE, 10⟩, ⟨1, 2, .RIDE, 15⟩]) rfl,
    claim_C7_build_graph.2.1 [exA, exB, exC] [wTripBad] [] (by decide)⟩

/-- C8: for every graph, query and RideEdge used by the query's best
path, replacing that RideEdge's cost with a larger value never
decreases the total cost of the best path `find_path` reports
(monotonicity), under a heuristic consistent for the original graph. -/
theorem claim_C8_monotonic (g : Graph) (h : StationId → Nat)
    (origin dest : StationId) (t : Option Nat) (i : Nat) (c2 : Nat)
    (r : PathResult)
    (hcons : ∀ ed ∈ g.edges, h ed.src ≤ ed.cost + h ed.dst)
    (hi : i < g.edges.length)
    (hride : (g.edges.get ⟨i, hi⟩).etype = EdgeType.RIDE)
    (hbig : (g.edges.get ⟨i, hi⟩).cost ≤ c2)
    (hr : find_path g h origin dest t = .ok r)
    (hused : g.edges.get ⟨i, hi⟩ ∈ r.edges) :
    ∃ r2, find_path ⟨g.stations, bumpCost g.edges i c2⟩ h origin dest t = .ok r2 ∧
      r.total ≤ r2.total := by
  obtain ⟨ho, hd, -⟩ := find_path_ok_elim hr
  have hsound := find_path_ok_sound hr
  obtain ⟨q, hq⟩ := IsPath_transfer_topo (bump_forward g.edges i c2) hsound.1
  have ho2 : stationMem ⟨g.stations, bumpCost g.edges i c2⟩ origin = true := ho
  have hd2 : stationMem ⟨g.stations, bumpCost g.edges i c2⟩ dest = true := hd
  obtain ⟨r2, hr2⟩ :=
    @find_path_reachable_ok ⟨g.stations, bumpCost g.edges i c2⟩ h origin dest t
      ho2 hd2 ⟨q, hq⟩
  refine ⟨r2, hr2, ?_⟩
  have hsound2 := find_path_ok_sound hr2
  obtain ⟨q2, hq2, hq2c⟩ := IsPath_transfer_cost
    (bump_backward g.edges i c2 (fun hi2 => hbig)) hsound2.1
  have hmin := find_path_ok_min hcons hr q2 hq2
  have hq2r : pathCost r2.edges = r2.total := hsound2.2.1
  omega

theorem claim_C8_monotonic_witness :
    ∃ r2, find_path ⟨exGraph.stations, bumpCost exGraph.edges 0 4⟩ hZero 0 2 none =
        .ok r2 ∧
      (PathResult.mk [0, 1, 2] [exE01, exE12] 5).total ≤ r2.total :=
  claim_C8_monotonic exGraph hZero 0 2 none 0 4 ⟨[0, 1, 2], [exE01, exE12], 5⟩
    (by decide) (by decide) (by decide) (by decide) find_path_exGraph_eq (by decide)

/-- C9: entering the `StatsPatch` context manager and then exiting it
(for any exception outcome) restores the
`nx.classes.coreviews.AdjacencyView.__getitem__` slot to exactly the
value it held before entry. -/
theorem claim_C9_roundtrip (p : StatsPatch) (lib : LibState) (exc : Option Nat) :
    statsExit (statsEnter p lib).1 exc (statsEnter p lib).2 = lib := rfl

/-- C10: a `StatsPatch` starts with counter 0 and empty search path,
each intercepted adjacency access increments the counter by exactly 1
and appends exactly one node to the search path, and consequently at
every point of any event sequence the counter equals the length of the
search path. -/
theorem claim_C10_counter_invariant :
    (∀ g : Graph, (StatsPatch.init g).counter = 0 ∧
      (StatsPatch.init g).search_path = []) ∧
    (∀ (p : StatsPatch) (n : Node), (statsAccess p n).counter = p.counter + 1 ∧
      (statsAccess p n).search_path = p.search_path ++ [n]) ∧
    (∀ (g : Graph) (lib : LibState) (ops : List PatchOp),
      (runOps g lib ops).1.counter = (runOps g lib ops).1.search_path.length) :=
  ⟨fun _ => ⟨rfl, rfl⟩, fun _ _ => ⟨rfl, rfl⟩,
    fun g lib ops => runOps_counter_aux ops (StatsPatch.init g) lib rfl⟩

end Transit
